import Mathlib

/-!
Verification of the jarvis content-processing pipeline.

This file gives a shallow embedding, in Lean 4, of the pure core of the
jarvis service (segmenter, translation-unit reassembly, JSON-array repair,
progress bookkeeping, retry policy, vector-store dispatch and point
construction), translated from the Rust sources under `src/`, and proves or
refutes the specification claims about them.

Modelling conventions:
- A Rust `String` / `&str` is modelled as a `List Char` (`Str`), since the
  code manipulates strings as sequences of unicode scalar values.
- Machine integers (`usize`, `i8`, `u32`, ...) are modelled as `Nat`; none of
  the verified paths exercises overflow.
- The tokenizer (`tiktoken`) and the LLM backends are external collaborators;
  they appear as function parameters (`tokensLen : Str → Nat`, a response
  oracle for the retry policy), as the specification directs.
- Imperative `while` loops over a cursor become recursion on the remaining
  input; the JSON-repair scanner, whose loops are mutually recursive, takes
  an explicit fuel argument that is chosen large enough to be inexhaustible
  on the inputs considered.
-/

namespace Jarvis

/-- Characters of a Rust string, in order. -/
abbrev Str := List Char

/-- Model of Rust `char::is_whitespace`: the Unicode `White_Space` property. -/
def rustIsWhitespace (c : Char) : Bool :=
  c.toNat = 0x09 ∨ c.toNat = 0x0A ∨ c.toNat = 0x0B ∨ c.toNat = 0x0C ∨
  c.toNat = 0x0D ∨ c.toNat = 0x20 ∨ c.toNat = 0x85 ∨ c.toNat = 0xA0 ∨
  c.toNat = 0x1680 ∨ (0x2000 ≤ c.toNat ∧ c.toNat ≤ 0x200A) ∨
  c.toNat = 0x2028 ∨ c.toNat = 0x2029 ∨ c.toNat = 0x202F ∨
  c.toNat = 0x205F ∨ c.toNat = 0x3000

/-- JSON insignificant whitespace (RFC 8259): space, tab, line feed, carriage return. -/
def jsonWs (c : Char) : Bool :=
  c.toNat = 0x20 ∨ c.toNat = 0x09 ∨ c.toNat = 0x0A ∨ c.toNat = 0x0D

/-- Model of `RawJSON::skip_space`: advance the cursor past whitespace. -/
def skipSpace (s : Str) : Str := s.dropWhile rustIsWhitespace

/-- Model of Rust `str::trim`: drop leading and trailing whitespace. -/
def rustTrim (s : Str) : Str :=
  ((s.dropWhile rustIsWhitespace).reverse.dropWhile rustIsWhitespace).reverse

/-- One character of serde_json string escaping (`\"`, `\\`, short control
escapes, `\u00XX` for other control characters, everything else verbatim). -/
def jsonEscapeChar (c : Char) : Str :=
  if c = '"' then ['\\', '"']
  else if c = '\\' then ['\\', '\\']
  else if c.toNat = 0x08 then ['\\', 'b']
  else if c.toNat = 0x09 then ['\\', 't']
  else if c.toNat = 0x0A then ['\\', 'n']
  else if c.toNat = 0x0C then ['\\', 'f']
  else if c.toNat = 0x0D then ['\\', 'r']
  else if c.toNat < 0x20 then
    ['\\', 'u', '0', '0',
     (Nat.digitChar (c.toNat / 16)), (Nat.digitChar (c.toNat % 16))]
  else [c]

/-- serde_json serialization of one string. -/
def jsonEncodeStr (s : Str) : Str :=
  '"' :: (s.flatMap jsonEscapeChar) ++ ['"']

/-- serde_json serialization of a `Vec<String>`. -/
def jsonEncodeStrList (v : List Str) : Str :=
  '[' :: List.intercalate [','] (v.map jsonEncodeStr) ++ [']']

/-- serde_json serialization of a `Vec<Vec<String>>`. -/
def jsonEncodeStrListList (v : List (List Str)) : Str :=
  '[' :: List.intercalate [','] (v.map jsonEncodeStrList) ++ [']']

/-! ## Content model (src/api/mod.rs) -/

/-- A content node: stable node id and its text runs. From `TEContent`. -/
structure TEContent where
  id : Str
  texts : List Str
deriving DecidableEq, Repr

/-- Ordered document content. From `TEContentList`. -/
abbrev TEContentList := List TEContent

/-- The hard section separator id: six hyphens. From `SECTION_SEPARATOR`. -/
def sectionSeparator : Str := ['-', '-', '-', '-', '-', '-']

/-- Model of `TEContent::to_translating_string`:
`serde_json::to_string(&self.texts)`. -/
def TEContent.toTranslatingString (c : TEContent) : Str :=
  jsonEncodeStrList c.texts

/-- A segmenter output unit: a contiguous content sublist with its token
estimate. From `TEUnit`. -/
structure TEUnit where
  tokens : Nat
  content : TEContentList
deriving DecidableEq, Repr

/-- The LLM chat model selector. From `AIModel` in src/openai.rs. -/
inductive AIModel where
  | gpt3_5
  | gpt4
deriving DecidableEq, Repr

/-- Model of `AIModel::translating_segment_tokens`, returning
(recommended, high) token budgets for the translation segmenter. -/
def AIModel.translatingSegmentTokens : AIModel → Nat × Nat
  | .gpt3_5 => (3000, 3400)
  | .gpt4 => (3000, 3400)

/-- Loop body of `TESegmenter::segment` (src/api/mod.rs lines 249-294),
recursing over the remaining content with the current open unit as
accumulator. `st`/`ht` are the recommended/high budgets, `tl` the token
counter applied to each item's translating string. -/
def segmentGo (st ht : Nat) (tl : Str → Nat) :
    TEContentList → TEUnit → List TEUnit
  | [], unit => if unit.tokens > 0 then [unit] else []
  | c :: rest, unit =>
    if c.texts.isEmpty then
      if c.id = sectionSeparator ∧ unit.tokens ≥ st then
        unit :: segmentGo st ht tl rest ⟨0, []⟩
      else
        segmentGo st ht tl rest unit
    else
      if unit.tokens + tl c.toTranslatingString > ht then
        if unit.content.isEmpty then
          segmentGo st ht tl rest ⟨tl c.toTranslatingString, [c]⟩
        else
          unit :: segmentGo st ht tl rest ⟨tl c.toTranslatingString, [c]⟩
      else
        segmentGo st ht tl rest
          ⟨unit.tokens + tl c.toTranslatingString, unit.content ++ [c]⟩

/-- Model of `TESegmenter::segment`: split content into translation units
under the model's token budgets. -/
def segment (model : AIModel) (tl : Str → Nat) (content : TEContentList) :
    List TEUnit :=
  segmentGo model.translatingSegmentTokens.1 model.translatingSegmentTokens.2
    tl content ⟨0, []⟩

/-- Each spawned translation piece performs exactly one LLM translate call,
so a translation job issues one call per segmenter unit
(src/api/translating.rs lines 300-330). -/
def translateJobLLMCalls (model : AIModel) (tl : Str → Nat)
    (content : TEContentList) : Nat :=
  (segment model tl content).length

/-! ## Segmenter invariants (claims C3, C4, C10) -/

lemma segmentGo_token_bound (st ht : Nat) (tl : Str → Nat)
    (content : TEContentList) (unit : TEUnit)
    (hinv : unit.tokens ≤ ht ∨
      ∃ c, unit.content = [c] ∧ tl c.toTranslatingString > ht) :
    ∀ u ∈ segmentGo st ht tl content unit,
      u.tokens ≤ ht ∨ ∃ c, u.content = [c] ∧ tl c.toTranslatingString > ht := by
  induction content generalizing unit with
  | nil =>
    intro u hu
    simp only [segmentGo] at hu
    split at hu
    · simp only [List.mem_singleton] at hu
      exact hu ▸ hinv
    · simp at hu
  | cons c rest ih =>
    intro u hu
    simp only [segmentGo] at hu
    split at hu
    · split at hu
      · rcases List.mem_cons.1 hu with h | h
        · exact h ▸ hinv
        · exact ih ⟨0, []⟩ (Or.inl (Nat.zero_le ht)) u h
      · exact ih unit hinv u hu
    · split at hu
      · split at hu
        · refine ih ⟨tl c.toTranslatingString, [c]⟩ ?_ u hu
          by_cases hb : tl c.toTranslatingString ≤ ht
          · exact Or.inl hb
          · exact Or.inr ⟨c, rfl, Nat.lt_of_not_le hb⟩
        · rcases List.mem_cons.1 hu with h | h
          · exact h ▸ hinv
          · refine ih ⟨tl c.toTranslatingString, [c]⟩ ?_ u h
            by_cases hb : tl c.toTranslatingString ≤ ht
            · exact Or.inl hb
            · exact Or.inr ⟨c, rfl, Nat.lt_of_not_le hb⟩
      · rename_i hle
        exact ih ⟨unit.tokens + tl c.toTranslatingString, unit.content ++ [c]⟩
          (Or.inl (Nat.le_of_not_lt hle)) u hu

/-- C3: every unit produced by the translation segmenter either fits the
model's high token budget (3400 for both models) or consists of exactly one
content item whose own token count exceeds that budget. -/
theorem C3_segment_token_bound (model : AIModel) (tl : Str → Nat)
    (content : TEContentList) (u : TEUnit)
    (hu : u ∈ segment model tl content) :
    model.translatingSegmentTokens.2 = 3400 ∧
      (u.tokens ≤ model.translatingSegmentTokens.2 ∨
        ∃ c, u.content = [c] ∧
          tl c.toTranslatingString > model.translatingSegmentTokens.2) := by
  refine ⟨by cases model <;> rfl, ?_⟩
  exact segmentGo_token_bound _ _ tl content ⟨0, []⟩
    (Or.inl (Nat.zero_le _)) u hu

/-- Witness for C3 at a concrete input. -/
theorem C3_segment_token_bound_witness :
    (⟨6, [⟨['a'], [['h', 'i']]⟩]⟩ : TEUnit) ∈
        segment AIModel.gpt3_5 (fun s => s.length) [⟨['a'], [['h', 'i']]⟩] ∧
      (AIModel.gpt3_5.translatingSegmentTokens.2 = 3400 ∧
        ((6 : Nat) ≤ AIModel.gpt3_5.translatingSegmentTokens.2 ∨
          ∃ c, ([⟨['a'], [['h', 'i']]⟩] : TEContentList) = [c] ∧
            (fun (s : Str) => s.length) c.toTranslatingString >
              AIModel.gpt3_5.translatingSegmentTokens.2)) :=
  ⟨by decide,
    C3_segment_token_bound AIModel.gpt3_5 (fun s => s.length)
      [⟨['a'], [['h', 'i']]⟩] ⟨6, [⟨['a'], [['h', 'i']]⟩]⟩ (by decide)⟩

lemma segmentGo_flatten (st ht : Nat) (tl : Str → Nat)
    (content : TEContentList) (unit : TEUnit)
    (hpos : ∀ c ∈ content, c.texts ≠ [] → 0 < tl c.toTranslatingString)
    (hinv : unit.tokens = 0 → unit.content = []) :
    ((segmentGo st ht tl content unit).map TEUnit.content).flatten
      = unit.content ++ content.filter (fun c => !c.texts.isEmpty) := by
  induction content generalizing unit with
  | nil =>
    simp only [segmentGo]
    split
    · simp
    · rename_i h
      have h0 : unit.tokens = 0 := by omega
      simp [hinv h0]
  | cons c rest ih =>
    have hpos' : ∀ x ∈ rest, x.texts ≠ [] → 0 < tl x.toTranslatingString :=
      fun x hx => hpos x (List.mem_cons_of_mem c hx)
    simp only [segmentGo]
    by_cases hemp : c.texts.isEmpty = true
    · rw [if_pos hemp, List.filter_cons]
      by_cases hsep : c.id = sectionSeparator ∧ unit.tokens ≥ st
      · rw [if_pos hsep]
        simp only [List.map_cons, List.flatten_cons]
        rw [ih ⟨0, []⟩ hpos' (fun _ => rfl)]
        simp [hemp]
      · rw [if_neg hsep, ih unit hpos' hinv]
        simp [hemp]
    · rw [if_neg hemp, List.filter_cons]
      have htx : c.texts ≠ [] := by
        intro h
        exact hemp (by simp [h])
      have hctl : 0 < tl c.toTranslatingString :=
        hpos c (List.mem_cons_self c rest) htx
      have hz1 : ¬ (tl c.toTranslatingString = 0) := by omega
      have hz2 : ¬ (unit.tokens + tl c.toTranslatingString = 0) := by omega
      by_cases hgt : unit.tokens + tl c.toTranslatingString > ht
      · rw [if_pos hgt]
        by_cases hce : unit.content.isEmpty = true
        · rw [if_pos hce,
            ih ⟨tl c.toTranslatingString, [c]⟩ hpos'
              (fun h0 => absurd h0 hz1)]
          have hun : unit.content = [] := List.isEmpty_iff.mp hce
          simp [hun, hemp]
        · rw [if_neg hce]
          simp only [List.map_cons, List.flatten_cons]
          rw [ih ⟨tl c.toTranslatingString, [c]⟩ hpos'
            (fun h0 => absurd h0 hz1)]
          simp [hemp]
      · rw [if_neg hgt,
          ih ⟨unit.tokens + tl c.toTranslatingString, unit.content ++ [c]⟩
            hpos' (fun h0 => absurd h0 hz2)]
        simp [hemp]

/-- C4 counterexample: with an empty-text, non-separator item present, the
concatenation of the units' content is not the list of non-separator items:
the empty-text item is skipped by the segmenter although its id is not the
separator. -/
theorem C4_roundtrip_counterexample :
    ((segment AIModel.gpt3_5 (fun s => s.length)
          [⟨['a'], [['x']]⟩, ⟨['b'], []⟩]).map TEUnit.content).flatten
        = [⟨['a'], [['x']]⟩] ∧
      ([⟨['a'], [['x']]⟩, ⟨['b'], []⟩] : TEContentList).filter
          (fun c => !(c.id = sectionSeparator : Bool))
        = [⟨['a'], [['x']]⟩, ⟨['b'], []⟩] ∧
      ([⟨['a'], [['x']]⟩] : TEContentList)
        ≠ [⟨['a'], [['x']]⟩, ⟨['b'], []⟩] := by
  refine ⟨by decide, by decide, by decide⟩

/-- C4 amended: provided the token counter is positive on the translating
string of every item with non-empty texts, concatenating the units' content
yields exactly the items of the input whose texts list is non-empty, in
original order (so empty-text items are dropped even when their id is not
the separator, and an item whose id is the separator but whose texts are
non-empty is kept). -/
theorem C4_roundtrip_amended (model : AIModel) (tl : Str → Nat)
    (content : TEContentList)
    (hpos : ∀ c ∈ content, c.texts ≠ [] → 0 < tl c.toTranslatingString) :
    ((segment model tl content).map TEUnit.content).flatten
      = content.filter (fun c => !c.texts.isEmpty) :=
  segmentGo_flatten _ _ tl content ⟨0, []⟩ hpos (fun _ => rfl)

/-- Witness for the amended C4 at a concrete input. -/
theorem C4_roundtrip_amended_witness :
    (∀ c ∈ ([⟨['a'], [['x']]⟩, ⟨['b'], []⟩] : TEContentList),
        c.texts ≠ [] → 0 < (fun (s : Str) => s.length) c.toTranslatingString) ∧
      ((segment AIModel.gpt3_5 (fun s => s.length)
            [⟨['a'], [['x']]⟩, ⟨['b'], []⟩]).map TEUnit.content).flatten
        = ([⟨['a'], [['x']]⟩, ⟨['b'], []⟩] : TEContentList).filter
            (fun c => !c.texts.isEmpty) :=
  ⟨by decide,
    C4_roundtrip_amended AIModel.gpt3_5 (fun s => s.length)
      [⟨['a'], [['x']]⟩, ⟨['b'], []⟩] (by decide)⟩

lemma segmentGo_content_ne_nil (st ht : Nat) (hst : 0 < st) (tl : Str → Nat)
    (content : TEContentList) (unit : TEUnit)
    (hinv : unit.tokens > 0 → unit.content ≠ []) :
    ∀ u ∈ segmentGo st ht tl content unit, u.content ≠ [] := by
  induction content generalizing unit with
  | nil =>
    intro u hu
    simp only [segmentGo] at hu
    split at hu
    · rename_i h
      simp only [List.mem_singleton] at hu
      exact hu ▸ hinv h
    · simp at hu
  | cons c rest ih =>
    intro u hu
    simp only [segmentGo] at hu
    split at hu
    · split at hu
      · rename_i h
        rcases List.mem_cons.1 hu with heq | hmem
        · exact heq ▸ hinv (Nat.lt_of_lt_of_le hst h.2)
        · exact ih ⟨0, []⟩
            (fun h0 => absurd (h0 : (0 : Nat) > 0) (Nat.lt_irrefl 0)) u hmem
      · exact ih unit hinv u hu
    · split at hu
      · split at hu
        · exact ih ⟨tl c.toTranslatingString, [c]⟩ (by simp) u hu
        · rename_i hce
          rcases List.mem_cons.1 hu with heq | hmem
          · subst heq
            exact fun h => hce (by simp [h])
          · exact ih ⟨tl c.toTranslatingString, [c]⟩ (by simp) u hmem
      · refine ih ⟨unit.tokens + tl c.toTranslatingString,
          unit.content ++ [c]⟩ ?_ u hu
        intro _
        simp

lemma segmentGo_all_empty (st ht : Nat) (hst : 0 < st) (tl : Str → Nat)
    (content : TEContentList) (h : ∀ c ∈ content, c.texts = []) :
    segmentGo st ht tl content ⟨0, []⟩ = [] := by
  induction content with
  | nil => simp [segmentGo]
  | cons c rest ih =>
    have htx : c.texts = [] := h c (List.mem_cons_self c rest)
    have hrest : ∀ x ∈ rest, x.texts = [] :=
      fun x hx => h x (List.mem_cons_of_mem c hx)
    simp only [segmentGo, htx, List.isEmpty_nil, if_pos]
    have : ¬ (c.id = sectionSeparator ∧ (0 : Nat) ≥ st) := by
      rintro ⟨-, hge⟩; omega
    rw [if_neg this]
    exact ih hrest

/-- C10: every unit produced by the translation segmenter has non-empty
content, and an input all of whose items have empty texts (only separators
and empty-text items) segments to zero units, so the translation job issues
zero LLM calls for it. -/
theorem C10_segment_nonempty_units (model : AIModel) (tl : Str → Nat)
    (content : TEContentList) :
    (∀ u ∈ segment model tl content, u.content ≠ []) ∧
      ((∀ c ∈ content, c.texts = []) →
        segment model tl content = [] ∧
          translateJobLLMCalls model tl content = 0) := by
  have hst : 0 < model.translatingSegmentTokens.1 := by cases model <;> decide
  constructor
  · exact segmentGo_content_ne_nil _ _ hst tl content ⟨0, []⟩
      (fun h => absurd (h : (0 : Nat) > 0) (Nat.lt_irrefl 0))
  · intro hall
    have hempty := segmentGo_all_empty _ model.translatingSegmentTokens.2 hst
      tl content hall
    refine ⟨hempty, ?_⟩
    simp [translateJobLLMCalls, segment] at hempty ⊢
    simp [hempty]

/-- Witness for C10 at a concrete input: a document of one separator and one
empty-text item produces zero units and zero LLM calls. -/
theorem C10_segment_nonempty_units_witness :
    (∀ u ∈ segment AIModel.gpt3_5 (fun s => s.length)
        [⟨['-', '-', '-', '-', '-', '-'], []⟩, ⟨['b'], []⟩], u.content ≠ []) ∧
      segment AIModel.gpt3_5 (fun s => s.length)
          [⟨['-', '-', '-', '-', '-', '-'], []⟩, ⟨['b'], []⟩] = [] ∧
        translateJobLLMCalls AIModel.gpt3_5 (fun s => s.length)
          [⟨['-', '-', '-', '-', '-', '-'], []⟩, ⟨['b'], []⟩] = 0 :=
  ⟨(C10_segment_nonempty_units AIModel.gpt3_5 (fun s => s.length)
      [⟨['-', '-', '-', '-', '-', '-'], []⟩, ⟨['b'], []⟩]).1,
    (C10_segment_nonempty_units AIModel.gpt3_5 (fun s => s.length)
      [⟨['-', '-', '-', '-', '-', '-'], []⟩, ⟨['b'], []⟩]).2 (by decide)⟩

/-! ## Translation unit rows and reassembly (claim C7) -/

/-- The eight colon code points recognized by `TEUnit::extract_order`
(`COLONS` in src/api/mod.rs). -/
def COLONS : List Char :=
  [Char.ofNat 0x003A, Char.ofNat 0x02F8, Char.ofNat 0x05C3, Char.ofNat 0x2236,
   Char.ofNat 0xA789, Char.ofNat 0xFE13, Char.ofNat 0xFF1A, Char.ofNat 0xFE55]

/-- Model of `str::ends_with(&COLONS)`: the last character is one of the
recognized colons. -/
def endsWithColons (s : Str) : Bool :=
  match s.getLast? with
  | some c => COLONS.contains c
  | none => false

/-- Decimal digit character (`0`..`9`). -/
def digitCh (d : Nat) : Char := Char.ofNat (48 + d % 10)

/-- Model of Rust `format!("{}", n)` for an unsigned integer: most
significant decimal digit first, `"0"` for zero. -/
def natRepr (n : Nat) : Str :=
  if n = 0 then ['0'] else (Nat.digits 10 n).reverse.map digitCh

/-- ASCII digit test. -/
def isAsciiDigit (c : Char) : Bool := 48 ≤ c.toNat ∧ c.toNat ≤ 57

/-- Digit-run parse shared by `rustParseNat`: one or more ASCII digits read
in base ten. -/
def parseDigits (t : Str) : Option Nat :=
  if t ≠ [] ∧ t.all isAsciiDigit then
    some (t.foldl (fun a c => 10 * a + (c.toNat - 48)) 0)
  else none

/-- Model of Rust `str::parse::<usize>()`: an optional leading `+` followed
by one or more ASCII digits, read in base ten. -/
def rustParseNat (s : Str) : Option Nat :=
  if s.head? = some '+' then parseDigits s.tail else parseDigits s

/-- Model of `TEUnit::extract_order` (src/api/mod.rs lines 196-219): read a
trailing-colon row prefix as a 1-based order; rows without a usable prefix
get order 0 and keep all their cells. -/
def extractOrder : Option (List Str) → Nat × List Str
  | none => (0, [])
  | some v =>
    match v with
    | [] => (0, ([] : List Str))
    | v0 :: _ =>
      if endsWithColons v0 then
        if (rustParseNat v0.dropLast).getD 0 > 0 then
          ((rustParseNat v0.dropLast).getD 0, v.tail)
        else (0, v)
      else (0, v)

/-- Model of `TEUnit::to_translating_list` with rows numbered from
`start + 1`; the source numbers rows from 1. -/
def toTranslatingListFrom (start : Nat) : TEContentList → List (List Str)
  | [] => []
  | c :: rest =>
    ((natRepr (start + 1) ++ [':']) :: c.texts)
      :: toTranslatingListFrom (start + 1) rest

/-- Model of `TEUnit::to_translating_list`. -/
def TEUnit.toTranslatingList (u : TEUnit) : List (List Str) :=
  toTranslatingListFrom 0 u.content

/-- Loop of `TEUnit::replace_texts` (src/api/mod.rs lines 172-191): walk the
positions; when the current input row's parsed order is at most the 1-based
position, attach its cells there and move to the next row. -/
def replaceTextsGo : TEContentList → Nat → List (List Str) → TEContentList
  | [], _, _ => []
  | c :: rest, i, input =>
    if (extractOrder input.head?).1 ≤ i + 1 then
      ⟨c.id, (extractOrder input.head?).2⟩
        :: replaceTextsGo rest (i + 1) input.tail
    else
      ⟨c.id, []⟩ :: replaceTextsGo rest (i + 1) input

/-- Model of `TEUnit::replace_texts`. -/
def TEUnit.replaceTexts (u : TEUnit) (input : List (List Str)) :
    TEContentList :=
  replaceTextsGo u.content 0 input

lemma foldl_base10_reverse (L : List Nat) (a : Nat) :
    L.reverse.foldl (fun a d => 10 * a + d) a
      = a * 10 ^ L.length + Nat.ofDigits 10 L := by
  induction L generalizing a with
  | nil => simp [Nat.ofDigits_nil]
  | cons d rest ih =>
    simp only [List.reverse_cons, List.foldl_append, List.foldl_cons,
      List.foldl_nil, ih, Nat.ofDigits_cons, List.length_cons]
    ring

lemma digitCh_toNat {d : Nat} (hd : d < 10) : (digitCh d).toNat = 48 + d := by
  interval_cases d <;> decide

lemma isAsciiDigit_digitCh {d : Nat} (hd : d < 10) :
    isAsciiDigit (digitCh d) = true := by
  simp [isAsciiDigit, digitCh_toNat hd]
  omega

lemma foldl_map_digitCh (L : List Nat) (hlt : ∀ d ∈ L, d < 10) (a : Nat) :
    (L.map digitCh).foldl (fun a c => 10 * a + (c.toNat - 48)) a
      = L.foldl (fun a d => 10 * a + d) a := by
  induction L generalizing a with
  | nil => rfl
  | cons d rest ih =>
    have hd : d < 10 := hlt d (List.mem_cons_self d rest)
    simp only [List.map_cons, List.foldl_cons, digitCh_toNat hd]
    rw [ih (fun x hx => hlt x (List.mem_cons_of_mem d hx))]
    congr 1
    omega

lemma rustParseNat_natRepr (n : Nat) : rustParseNat (natRepr n) = some n := by
  by_cases hn : n = 0
  · subst hn
    decide
  · have hne : Nat.digits 10 n ≠ [] := Nat.digits_ne_nil_iff_ne_zero.mpr hn
    have hlt : ∀ d ∈ Nat.digits 10 n, d < 10 :=
      fun d hd => Nat.digits_lt_base (by norm_num) hd
    have hltr : ∀ d ∈ (Nat.digits 10 n).reverse, d < 10 :=
      fun d hd => hlt d (List.mem_reverse.mp hd)
    have hM : natRepr n = ((Nat.digits 10 n).reverse.map digitCh) := by
      simp [natRepr, hn]
    have hall : ∀ c ∈ natRepr n, isAsciiDigit c = true := by
      intro c hc
      rw [hM] at hc
      obtain ⟨d, hd, rfl⟩ := List.mem_map.mp hc
      exact isAsciiDigit_digitCh (hltr d hd)
    have hnnil : natRepr n ≠ [] := by
      rw [hM]
      simp only [ne_eq, List.map_eq_nil_iff, List.reverse_eq_nil_iff]
      exact hne
    have hhead : (natRepr n).head? ≠ some '+' := by
      match hrepr : natRepr n with
      | [] => exact absurd hrepr hnnil
      | c :: r =>
        have hc : isAsciiDigit c = true := by
          refine hall c ?_
          rw [hrepr]
          exact List.mem_cons_self c r
        simp only [List.head?_cons, ne_eq, Option.some.injEq]
        intro hplus
        subst hplus
        simp [isAsciiDigit] at hc
    unfold rustParseNat
    rw [if_neg hhead]
    unfold parseDigits
    rw [if_pos ⟨hnnil, List.all_eq_true.mpr hall⟩, hM,
      foldl_map_digitCh _ hltr, foldl_base10_reverse]
    simp [Nat.ofDigits_digits]

lemma natRepr_getLast_append :
    ∀ (n : Nat), ((natRepr n ++ [':']).getLast?) = some ':' := by
  intro n
  simp [List.getLast?_concat]

lemma extractOrder_row (k : Nat) (texts : List Str) :
    extractOrder (some ((natRepr (k + 1) ++ [':']) :: texts))
      = (k + 1, texts) := by
  have hcolon : endsWithColons (natRepr (k + 1) ++ [':']) = true := by
    unfold endsWithColons
    rw [List.getLast?_concat]
    decide
  have hdrop : (natRepr (k + 1) ++ [':']).dropLast = natRepr (k + 1) := by
    simp
  unfold extractOrder
  simp only [hcolon, if_true, hdrop, rustParseNat_natRepr, Option.getD_some]
  rw [if_pos (Nat.succ_pos k)]
  rfl

lemma replaceTextsGo_roundtrip (content : TEContentList) (k : Nat) :
    replaceTextsGo content k (toTranslatingListFrom k content) = content := by
  induction content generalizing k with
  | nil => rfl
  | cons c rest ih =>
    simp only [toTranslatingListFrom, replaceTextsGo, List.head?_cons,
      extractOrder_row, List.tail_cons]
    rw [if_pos (Nat.le_refl (k + 1))]
    rw [ih (k + 1)]

/-- C7: feeding a unit's own translating list back through `replace_texts`
reproduces the unit's content exactly, with original ids and texts. -/
theorem C7_replace_texts_roundtrip (u : TEUnit) :
    u.replaceTexts u.toTranslatingList = u.content :=
  replaceTextsGo_roundtrip u.content 0

/-! ## Job progress bookkeeping (claim C2) -/

/-- Persisted `progress` values of a successful translating job run
(src/api/translating.rs): the reset to 0 in `create` (line 245), one write
per completed piece of `progress * 100 / pieces` (line 369), and the final
write of 100 (line 415). -/
def translatingProgressWrites (pieces : Nat) : List Nat :=
  0 :: (List.range pieces).map (fun p => (p + 1) * 100 / pieces) ++ [100]

/-- Decidable check that a list of naturals is non-decreasing. -/
def nonDecreasing : List Nat → Bool
  | [] => true
  | [_] => true
  | a :: b :: t => decide (a ≤ b) && nonDecreasing (b :: t)

/-- Persisted `progress` values of a successful summarizing job run
(src/api/summarizing.rs): the reset to 0 in `create` (line 141); when the
content is a single piece of at most 100 tokens the LLM loop is skipped and
only the final write of 100 happens; otherwise one write per completed piece
of `progress * 100 / pieces + 1` (line 268), a write of 100 after the final
condensation when more than one piece exists (line 335), and the final
write of 100 (line 401). -/
def summarizingProgressWrites (pieces : Nat) (singleShort : Bool) :
    List Nat :=
  if pieces = 1 ∧ singleShort then [0, 100]
  else
    0 :: ((List.range pieces).map (fun p => (p + 1) * 100 / pieces + 1)
      ++ (if pieces = 1 then [] else [100]) ++ [100])

/-- C2 fails on the code: a successful summarizing run over two pieces
persists the progress sequence 0, 51, 101, 100, 100. The write after the
last piece is `pieces * 100 / pieces + 1 = 101`, outside [0, 100], and the
sequence then decreases to 100, so it is not non-decreasing either. (The
translating job, shown here at two pieces, does stay within the claim.) -/
theorem C2_summarizing_progress_bug :
    summarizingProgressWrites 2 false = [0, 51, 101, 100, 100] ∧
      101 ∈ summarizingProgressWrites 2 false ∧
      nonDecreasing (summarizingProgressWrites 2 false) = false ∧
      (∀ p ∈ translatingProgressWrites 2, p ≤ 100) ∧
      nonDecreasing (translatingProgressWrites 2) = true := by
  refine ⟨by decide, by decide, by decide, by decide, by decide⟩

/-! ## Summarization trimming loop (claim C8) -/

/-- High token budget of the summarization segmenter
(`SUMMARIZE_HIGH_TOKENS`, src/api/mod.rs line 23). -/
def SUMMARIZE_HIGH_TOKENS : Nat := 3000

/-- One-step-per-fuel model of the trimming loop in `summarize`
(src/api/summarizing.rs lines 294-300): while more than two pieces remain
and their total token count exceeds the high budget, remove the piece at
index `len / 2 + 1` from both lists. Each iteration shortens the lists, so
fuel `tokens.length` (supplied by `trimLoop`) can never run out. -/
def trimLoopGo : Nat → List Str × List Nat → List Str × List Nat
  | 0, st => st
  | fuel + 1, (ps, ts) =>
    if ts.length > 2 ∧ ts.sum > SUMMARIZE_HIGH_TOKENS then
      trimLoopGo fuel
        (ps.eraseIdx (ts.length / 2 + 1), ts.eraseIdx (ts.length / 2 + 1))
    else (ps, ts)

/-- The trimming loop over per-piece summaries `ps` with their token counts
`ts`. -/
def trimLoop (ps : List Str) (ts : List Nat) : List Str × List Nat :=
  trimLoopGo ts.length (ps, ts)

/-- C8 fails on the code: with three per-piece summaries of 1500 tokens
each (total 4500 > 3000) the loop removes index `3 / 2 + 1 = 2`, the LAST
piece, so the tail is removed rather than a middle piece. And with three
pieces of 2000 tokens each it also removes the tail and then stops at two
pieces whose total, 4000, still exceeds the 3000 budget. -/
theorem C8_trim_removes_tail_bug :
    trimLoop [['a'], ['b'], ['c']] [1500, 1500, 1500]
        = ([['a'], ['b']], [1500, 1500]) ∧
      trimLoop [['a'], ['b'], ['c']] [2000, 2000, 2000]
        = ([['a'], ['b']], [2000, 2000]) ∧
      2000 + 2000 > SUMMARIZE_HIGH_TOKENS := by
  refine ⟨by decide, by decide, by decide⟩

/-! ## LLM client retry policy (claim C5) -/

/-- The error type carried by the client (`HTTPError` in axum_web): pseudo
HTTP status code and message. -/
structure HTTPErr where
  code : Nat
  message : Str
deriving DecidableEq, Repr

/-- Backend parameter selection, model of `OpenAI::get_params`
(src/openai.rs lines 207-240): pick index `i % len` from the per-model
backend rotation, falling back to the direct endpoint when the rotation is
empty. -/
def getParams {β : Type} (backends : List β) (deflt : β) (i : Nat) : β :=
  if backends.isEmpty then deflt
  else backends.getD (i % backends.length) deflt

/-- Model of one LLM call with fail-over, the shared shape of
`do_translate`, `do_summarize`, `do_keywords` (each after
`check_chat_response`; src/openai.rs lines 523-544, 616-637, 752-773) and
`do_embedding` (lines 810-829). `response i` is the checked outcome of the
attempt against rotation index `i` (`rand_index`). On a first error with
code 429 or a code strictly greater than 500, exactly one further attempt
is made at index `i + 1` and its outcome is returned as is; any other first
error propagates immediately. Returns the outcome and the attempted
rotation indices. -/
def doCallWithRetry {R : Type} (response : Nat → Except HTTPErr R)
    (i : Nat) : Except HTTPErr R × List Nat :=
  match response i with
  | .ok r => (.ok r, [i])
  | .error e =>
    if e.code = 429 ∨ e.code > 500 then (response (i + 1), [i, i + 1])
    else (.error e, [i])

/-- C5 counterexample: a first failure with HTTP status exactly 500 — which
the claim covers via "any status ≥ 500" — is not retried: with an oracle
failing with 500 on attempt 0 and succeeding on attempt 1, the call returns
the 500 error after the single attempt 0. -/
theorem C5_retry_counterexample :
    doCallWithRetry
        (fun i => if i = 0 then (Except.error ⟨500, []⟩ : Except HTTPErr Nat)
          else Except.ok 0) 0
      = (Except.error ⟨500, []⟩, [0]) ∧
      (500 : Nat) ≥ 500 ∧
      (fun i => if i = 0 then (Except.error ⟨500, []⟩ : Except HTTPErr Nat)
        else Except.ok 0) 1 = Except.ok 0 :=
  ⟨rfl, Nat.le_refl 500, rfl⟩

/-- C5 amended: a first failure with status 429 or with status strictly
greater than 500 causes exactly one retry against the next rotation index,
whose outcome — success or second failure — is propagated as is; a first
failure with any other status (500 itself included) propagates immediately
without retry; a first success performs no retry. -/
theorem C5_retry_amended {R : Type} (response : Nat → Except HTTPErr R)
    (i : Nat) :
    (∀ r, response i = .ok r → doCallWithRetry response i = (.ok r, [i])) ∧
      (∀ e, response i = .error e → (e.code = 429 ∨ e.code > 500) →
        doCallWithRetry response i = (response (i + 1), [i, i + 1])) ∧
      (∀ e, response i = .error e → ¬ (e.code = 429 ∨ e.code > 500) →
        doCallWithRetry response i = (.error e, [i])) := by
  refine ⟨?_, ?_, ?_⟩
  · intro r h
    simp [doCallWithRetry, h]
  · intro e h hc
    simp [doCallWithRetry, h, hc]
  · intro e h hc
    simp [doCallWithRetry, h, hc]

/-- Witness for the amended C5: a 503 on attempt 0 is retried at index 1
and the second outcome is returned. -/
theorem C5_retry_amended_witness :
    doCallWithRetry
        (fun i => if i = 0 then (Except.error ⟨503, []⟩ : Except HTTPErr Nat)
          else Except.ok 7) 0
      = ((fun i => if i = 0 then (Except.error ⟨503, []⟩ : Except HTTPErr Nat)
          else Except.ok 7) 1, [0, 1]) :=
  (C5_retry_amended
      (fun i => if i = 0 then (Except.error ⟨503, []⟩ : Except HTTPErr Nat)
        else Except.ok 7) 0).2.1
    ⟨503, []⟩ rfl (Or.inr (by decide))

/-! ## Vector store dispatch (claim C1) -/

/-- State of the Qdrant facade as set up by `Qdrant::new`
(src/db/qdrant.rs lines 20-46): the private collection name and the public
mirror name, the private name suffixed with `_pub`. -/
structure QdrantState where
  collectionName : Str
  collectionPub : Str
deriving DecidableEq, Repr

/-- Model of `Qdrant::new`. -/
def qdrantNew (name : Str) : QdrantState :=
  { collectionName := name, collectionPub := name ++ ['_', 'p', 'u', 'b'] }

/-- The collection and limit of a nearest-neighbour query. -/
structure SearchQuery where
  collection : Str
  limit : Nat
deriving DecidableEq, Repr

/-- Model of the query built by `Qdrant::search_points`
(src/db/qdrant.rs lines 86-107). -/
def searchPoints (q : QdrantState) : SearchQuery :=
  { collection := q.collectionName, limit := 3 }

/-- Model of the query built by `Qdrant::search_public_points`
(src/db/qdrant.rs lines 109-130). The source passes
`self.collection_name.to_string()` as the collection, not
`self.collection_pub`, although the request runs on the public client. -/
def searchPublicPoints (q : QdrantState) : SearchQuery :=
  { collection := q.collectionName, limit := 3 }

/-- Dispatch of the search handler (src/api/embedding.rs lines 72-125):
`public` defaults to false, is forced to true when `gid` is absent, and
selects `search_public_points` versus `search_points`. -/
def searchDispatch (q : QdrantState) (gidPresent : Bool)
    (publicFlag : Option Bool) : SearchQuery :=
  if (if gidPresent then publicFlag.getD false else true) then
    searchPublicPoints q
  else searchPoints q

/-- C1 fails on the code: with private collection `jarvis`, a search with
`gid` absent dispatches to `search_public_points` with limit 3 as claimed,
but the query names the private collection `jarvis` rather than the public
mirror `jarvis_pub` that `Qdrant::new` constructs and `copy_to_public`
populates. A search with `gid` present and `public` false does query the
private collection with limit 3. -/
theorem C1_public_search_collection_bug :
    searchDispatch (qdrantNew ['j', 'a', 'r', 'v', 'i', 's']) false none
        = { collection := ['j', 'a', 'r', 'v', 'i', 's'], limit := 3 } ∧
      (qdrantNew ['j', 'a', 'r', 'v', 'i', 's']).collectionPub
        = ['j', 'a', 'r', 'v', 'i', 's', '_', 'p', 'u', 'b'] ∧
      (searchDispatch (qdrantNew ['j', 'a', 'r', 'v', 'i', 's'])
            false none).collection
        ≠ (qdrantNew ['j', 'a', 'r', 'v', 'i', 's']).collectionPub ∧
      searchDispatch (qdrantNew ['j', 'a', 'r', 'v', 'i', 's'])
          true (some false)
        = { collection := ['j', 'a', 'r', 'v', 'i', 's'], limit := 3 } := by
  refine ⟨rfl, rfl, by decide, rfl⟩

/-! ## Embedding row and vector point (claim C6) -/

/-- Tabular embedding row (src/db/model_embedding.rs). `uuid`, `cid` and
`gid` are abstracted to their string forms and `lang639` is the ISO 639-3
code produced by `self.language.to_639_3()`. -/
structure EmbeddingRow where
  uuid : Str
  cid : Str
  lang639 : Str
  gid : Str
deriving DecidableEq, Repr

/-- A vector point as built for upsert: point id and payload entries (the
Rust `HashMap` payload as an association list in insertion order); the
embedding vector itself is carried opaquely by the caller and omitted
here. -/
structure QdrantPoint where
  id : Str
  payload : List (Str × Str)
deriving DecidableEq, Repr

/-- Model of `Embedding::qdrant_point` (src/db/model_embedding.rs lines
70-88): the point id is the row's uuid, and the payload holds the row's cid
under key `cid`, the 639-3 code under key `lang`, and the gid under key
`gid`. -/
def qdrantPoint (e : EmbeddingRow) : QdrantPoint :=
  { id := e.uuid,
    payload := [(['c', 'i', 'd'], e.cid),
      (['l', 'a', 'n', 'g'], e.lang639),
      (['g', 'i', 'd'], e.gid)] }

/-- Filter keys the search handler places in its conjunction filter for the
optional inputs that are present (src/api/embedding.rs lines 66-113):
`gid`, `language`, `cid`. -/
def searchFilterKeys (gidPresent langPresent cidPresent : Bool) :
    List Str :=
  (if gidPresent then [['g', 'i', 'd']] else []) ++
    (if langPresent then [['l', 'a', 'n', 'g', 'u', 'a', 'g', 'e']] else []) ++
    (if cidPresent then [['c', 'i', 'd']] else [])

/-- C6 fails on the code: for a concrete row the point does carry the row's
uuid as its id, and the payload values are the row's cid, 639-3 code and
gid — but the language value is stored under key `lang`, while the search
path filters on key `language`, which is absent from the payload, so a
language-filtered search can never match a stored point. -/
theorem C6_payload_language_key_bug :
    (qdrantPoint ⟨['u', '1'], ['c', '1'], ['e', 'n', 'g'], ['g', '1']⟩).id
        = ['u', '1'] ∧
      (qdrantPoint
            ⟨['u', '1'], ['c', '1'], ['e', 'n', 'g'], ['g', '1']⟩).payload
        = [(['c', 'i', 'd'], ['c', '1']), (['l', 'a', 'n', 'g'], ['e', 'n', 'g']),
           (['g', 'i', 'd'], ['g', '1'])] ∧
      ['l', 'a', 'n', 'g', 'u', 'a', 'g', 'e'] ∈ searchFilterKeys true true true ∧
      ['l', 'a', 'n', 'g', 'u', 'a', 'g', 'e'] ∉
        ((qdrantPoint
            ⟨['u', '1'], ['c', '1'], ['e', 'n', 'g'], ['g', '1']⟩).payload.map
          Prod.fst) := by
  refine ⟨rfl, rfl, by decide, by decide⟩

/-! ## JSON-array repair scanner (claim C9), from src/json_util.rs -/

/-- JSON insignificant-whitespace skip used by the strict reference
grammar. -/
def jsonSkip (s : Str) : Str := s.dropWhile jsonWs

/-- Model of `RawJSON::can_not_end_text` (src/json_util.rs lines 247-274):
look ahead (second argument is the `next_begin` flag, initially false); a
quote may not close the string when the next structural context still
expects ordinary text. -/
def canNotEndText : Str → Bool → Bool
  | [], _ => false
  | c :: rest, nextBegin =>
    if rustIsWhitespace c then canNotEndText rest nextBegin
    else if nextBegin then
      if c = '"' ∨ c = '{' ∨ c = '[' then false else true
    else
      if c = '}' ∨ c = ']' then canNotEndText rest false
      else if c = ',' then canNotEndText rest true
      else true

/-- Loop of `RawJSON::key` (src/json_util.rs lines 276-295): copy
characters verbatim up to the next quote. The opening quote is already in
`acc`. -/
def scanKeyGo : Nat → Str → Str → Option (Str × Str)
  | 0, _, _ => none
  | fuel + 1, acc, s =>
    match s with
    | [] => none
    | c :: rest =>
      if c = '"' then some (acc ++ ['"'], rest)
      else scanKeyGo fuel (acc ++ [c]) rest

/-- Model of `RawJSON::key`, entered with the opening quote at the head. -/
def scanKey (fuel : Nat) (s : Str) : Option (Str × Str) :=
  match s with
  | c :: rest => if c = '"' then scanKeyGo fuel ['"'] rest else none
  | [] => none

/-- Loop of `RawJSON::text` (src/json_util.rs lines 297-356), with the
output accumulated in `acc` (the opening quote is already there). Each
iteration consumes at least one input character, so the fuel supplied by
the callers cannot run out. -/
def scanTextGo : Nat → Str → Str → Option (Str × Str)
  | 0, _, _ => none
  | fuel + 1, acc, s =>
    match s with
    | [] => none
    | c :: rest =>
      if c = '\\' then
        match rest with
        | [] => none
        | e :: rest2 =>
          if e = '"' ∨ e = '\\' ∨ e = '/' ∨ e = 'b' ∨ e = 'f' ∨ e = 'n' ∨
              e = 'r' ∨ e = 't' ∨ e = 'u' then
            scanTextGo fuel (acc ++ ['\\', e]) rest2
          else
            scanTextGo fuel (acc ++ ['\\', '\\', e]) rest2
      else if c = '"' then
        match skipSpace rest with
        | [] => some (acc ++ ['"'], [])
        | d :: r2 =>
          if canNotEndText (d :: r2) false then
            scanTextGo fuel acc (d :: r2)
          else if d = ',' ∨ d = ':' ∨ d = '}' ∨ d = ']' then
            some (acc ++ ['"'], d :: r2)
          else
            scanTextGo fuel (acc ++ [d]) r2
      else
        scanTextGo fuel (acc ++ [c]) rest

/-- Model of `RawJSON::text`, entered with the opening quote at the head. -/
def scanText (fuel : Nat) (s : Str) : Option (Str × Str) :=
  match s with
  | c :: rest => if c = '"' then scanTextGo fuel ['"'] rest else none
  | [] => none

mutual

/-- Model of `RawJSON::array` (src/json_util.rs lines 72-136), entered with
the opening bracket at the head of the input; returns the canonical output
fragment and the unconsumed input. -/
def scanArray : Nat → Str → Option (Str × Str)
  | 0, _ => none
  | fuel + 1, s =>
    match s with
    | c :: rest =>
      if c = '[' then
        match skipSpace rest with
        | [] => scanArrayLoop fuel ['['] []
        | d :: r2 =>
          if d = ']' then some (['[', ']'], r2)
          else scanArrayLoop fuel ['['] (d :: r2)
      else none
    | [] => none

/-- The value/separator loop of `RawJSON::array`. -/
def scanArrayLoop : Nat → Str → Str → Option (Str × Str)
  | 0, _, _ => none
  | fuel + 1, acc, s =>
    match s with
    | [] => none
    | c :: _ =>
      (if c = '{' then scanObject fuel s
       else if c = '[' then scanArray fuel s
       else if c = '"' then scanText fuel s
       else none).bind fun out =>
        match skipSpace out.2 with
        | [] => none
        | d :: r2 =>
          if d = ',' then
            scanArrayLoop fuel (acc ++ out.1 ++ [',']) (skipSpace r2)
          else if d = ']' then some (acc ++ out.1 ++ [']'], r2)
          else none

/-- Model of `RawJSON::object` (src/json_util.rs lines 138-245), entered
with the opening brace at the head of the input. -/
def scanObject : Nat → Str → Option (Str × Str)
  | 0, _ => none
  | fuel + 1, s =>
    match s with
    | c :: rest =>
      if c = '{' then
        match skipSpace rest with
        | [] => scanObjectLoop fuel ['{'] []
        | d :: r2 =>
          if d = '}' then some (['{', '}'], r2)
          else scanObjectLoop fuel ['{'] (d :: r2)
      else none
    | [] => none

/-- The key/colon/value/separator loop of `RawJSON::object`. -/
def scanObjectLoop : Nat → Str → Str → Option (Str × Str)
  | 0, _, _ => none
  | fuel + 1, acc, s =>
    match s with
    | [] => none
    | c :: _ =>
      if c = '"' then
        (scanKey fuel s).bind fun kout =>
          match skipSpace kout.2 with
          | [] => none
          | d :: r2 =>
            if d = ':' then
              match skipSpace (skipSpace r2) with
              | [] => none
              | v :: t =>
                (if v = '{' then scanObject fuel (v :: t)
                 else if v = '[' then scanArray fuel (v :: t)
                 else if v = '"' then scanText fuel (v :: t)
                 else none).bind fun vout =>
                  match skipSpace vout.2 with
                  | [] => none
                  | w :: r5 =>
                    if w = ',' then
                      scanObjectLoop fuel
                        (acc ++ kout.1 ++ [':'] ++ vout.1 ++ [','])
                        (skipSpace r5)
                    else if w = '}' then
                      some (acc ++ kout.1 ++ [':'] ++ vout.1 ++ ['}'], r5)
                    else none
            else none
      else none

end

/-- Model of `RawJSON::fix_me` (src/json_util.rs lines 21-60); `RawJSON::new`
trims the input first. Success is `some` with the canonical output; the
source's error messages are dropped. The fuel `2 * length + 2` bounds the
scanner's loop iterations, each of which consumes input, so it cannot run
out before the scanner finishes. -/
def fixMe (s : Str) : Option Str :=
  match skipSpace (rustTrim s) with
  | [] => none
  | c :: t =>
    (if c = '[' then scanArray (2 * (rustTrim s).length + 2) (c :: t)
     else if c = '{' then scanObject (2 * (rustTrim s).length + 2) (c :: t)
     else if c = '"' then scanText (2 * (rustTrim s).length + 2) (c :: t)
     else none).bind fun out =>
      if (skipSpace out.2).isEmpty then some out.1 else none

/-! ## Strict reference grammar for arrays of arrays of strings (claim C9) -/

/-- Hexadecimal digit test. -/
def isHexDigit (c : Char) : Bool :=
  (48 ≤ c.toNat ∧ c.toNat ≤ 57) ∨ (65 ≤ c.toNat ∧ c.toNat ≤ 70) ∨
    (97 ≤ c.toNat ∧ c.toNat ≤ 102)

/-- Strict scan of a JSON string-literal body after the opening quote (RFC
8259): returns the raw body — escape sequences kept verbatim — and the
input after the closing quote. Every step consumes input, so the fuel the
entry points supply cannot run out. -/
def parseStrBody : Nat → Str → Option (Str × Str)
  | 0, _ => none
  | fuel + 1, s =>
    match s with
    | [] => none
    | c :: rest =>
      if c = '"' then some ([], rest)
      else if c = '\\' then
        match rest with
        | [] => none
        | e :: rest2 =>
          if e = '"' ∨ e = '\\' ∨ e = '/' ∨ e = 'b' ∨ e = 'f' ∨ e = 'n' ∨
              e = 'r' ∨ e = 't' then
            (parseStrBody fuel rest2).map fun br => ('\\' :: e :: br.1, br.2)
          else if e = 'u' then
            match rest2 with
            | h1 :: h2 :: h3 :: h4 :: rest3 =>
              if isHexDigit h1 ∧ isHexDigit h2 ∧ isHexDigit h3 ∧
                  isHexDigit h4 then
                (parseStrBody fuel rest3).map fun br =>
                  ('\\' :: 'u' :: h1 :: h2 :: h3 :: h4 :: br.1, br.2)
              else none
            | _ => none
          else none
      else if c.toNat < 0x20 then none
      else (parseStrBody fuel rest).map fun br => (c :: br.1, br.2)

/-- Strict parse of the element list of a JSON array of strings, positioned
at the first element; yields raw string bodies and the input after the
closing bracket. -/
def parseStringsLoop : Nat → Str → Option (List Str × Str)
  | 0, _ => none
  | fuel + 1, s =>
    match s with
    | [] => none
    | c :: rest =>
      if c = '"' then
        (parseStrBody fuel rest).bind fun br =>
          match jsonSkip br.2 with
          | [] => none
          | d :: r2 =>
            if d = ',' then
              (parseStringsLoop fuel (jsonSkip r2)).map fun esr =>
                (br.1 :: esr.1, esr.2)
            else if d = ']' then some ([br.1], r2)
            else none
      else none

/-- Strict parse of one JSON array of strings, positioned at its opening
bracket. -/
def parseStrArray : Nat → Str → Option (List Str × Str)
  | 0, _ => none
  | fuel + 1, s =>
    match s with
    | [] => none
    | c :: rest =>
      if c = '[' then
        match jsonSkip rest with
        | [] => parseStringsLoop fuel []
        | d :: r2 =>
          if d = ']' then some ([], r2)
          else parseStringsLoop fuel (d :: r2)
      else none

/-- Strict parse of the element list of the outer array, positioned at the
first inner array. -/
def parseArraysLoop : Nat → Str → Option (List (List Str) × Str)
  | 0, _ => none
  | fuel + 1, s =>
    (parseStrArray fuel s).bind fun vr =>
      match jsonSkip vr.2 with
      | [] => none
      | d :: r2 =>
        if d = ',' then
          (parseArraysLoop fuel (jsonSkip r2)).map fun vsr =>
            (vr.1 :: vsr.1, vsr.2)
        else if d = ']' then some ([vr.1], r2)
        else none

/-- Strict parse of the outer array, positioned at its opening bracket. -/
def parseOuterArray : Nat → Str → Option (List (List Str) × Str)
  | 0, _ => none
  | fuel + 1, s =>
    match s with
    | [] => none
    | c :: rest =>
      if c = '[' then
        match jsonSkip rest with
        | [] => parseArraysLoop fuel []
        | d :: r2 =>
          if d = ']' then some ([], r2)
          else parseArraysLoop fuel (d :: r2)
      else none

/-- Strict parse of a complete input as a JSON array of arrays of strings,
keeping string bodies raw: surrounding whitespace is trimmed exactly as the
repair scanner's constructor does, and nothing may remain after the outer
closing bracket. The fuel `2 * length + 2` exceeds the number of parse
steps, each of which consumes input. -/
def parseArraysRaw (s : Str) : Option (List (List Str)) :=
  match parseOuterArray (2 * (rustTrim s).length + 2) (rustTrim s) with
  | some (v, rest) => if rest.isEmpty then some v else none
  | none => none

/-- Join with commas, the separator shape of serde_json and of the repair
scanner's output. -/
def joinComma : List Str → Str
  | [] => []
  | [x] => x
  | x :: y :: xs => x ++ ',' :: joinComma (y :: xs)

/-- A raw string body re-quoted. -/
def serializeStrRaw (b : Str) : Str := '"' :: b ++ ['"']

/-- Canonical form of one inner array with raw string bodies. -/
def serializeInnerRaw (es : List Str) : Str :=
  '[' :: joinComma (es.map serializeStrRaw) ++ [']']

/-- Canonical form of the whole array of arrays with raw string bodies:
the input with all whitespace outside string literals removed. -/
def serializeRaw (v : List (List Str)) : Str :=
  '[' :: joinComma (v.map serializeInnerRaw) ++ [']']

/-- Value of a hexadecimal digit. -/
def hexVal (c : Char) : Nat :=
  if c.toNat ≤ 57 then c.toNat - 48
  else if c.toNat ≤ 70 then c.toNat - 55
  else c.toNat - 87

/-- Decode a raw JSON string body to its character content: the standard
escapes, `\\uXXXX` with surrogate pairs combined and lone surrogates
rejected, as serde_json reads strings. -/
def decodeBody : Nat → Str → Option Str
  | 0, _ => none
  | _ + 1, [] => some []
  | fuel + 1, c :: rest =>
    if c = '\\' then
      match rest with
      | [] => none
      | e :: rest2 =>
        if e = '"' then (decodeBody fuel rest2).map fun b => '"' :: b
        else if e = '\\' then (decodeBody fuel rest2).map fun b => '\\' :: b
        else if e = '/' then (decodeBody fuel rest2).map fun b => '/' :: b
        else if e = 'b' then
          (decodeBody fuel rest2).map fun b => Char.ofNat 0x08 :: b
        else if e = 'f' then
          (decodeBody fuel rest2).map fun b => Char.ofNat 0x0C :: b
        else if e = 'n' then (decodeBody fuel rest2).map fun b => '\n' :: b
        else if e = 'r' then
          (decodeBody fuel rest2).map fun b => Char.ofNat 0x0D :: b
        else if e = 't' then (decodeBody fuel rest2).map fun b => '\t' :: b
        else if e = 'u' then
          match rest2 with
          | h1 :: h2 :: h3 :: h4 :: rest3 =>
            if isHexDigit h1 ∧ isHexDigit h2 ∧ isHexDigit h3 ∧
                isHexDigit h4 then
              let n := ((hexVal h1 * 16 + hexVal h2) * 16 + hexVal h3) * 16
                + hexVal h4
              if 0xD800 ≤ n ∧ n ≤ 0xDBFF then
                match rest3 with
                | '\\' :: 'u' :: g1 :: g2 :: g3 :: g4 :: rest4 =>
                  if isHexDigit g1 ∧ isHexDigit g2 ∧ isHexDigit g3 ∧
                      isHexDigit g4 then
                    let m := ((hexVal g1 * 16 + hexVal g2) * 16 + hexVal g3)
                      * 16 + hexVal g4
                    if 0xDC00 ≤ m ∧ m ≤ 0xDFFF then
                      (decodeBody fuel rest4).map fun b =>
                        Char.ofNat
                          (0x10000 + (n - 0xD800) * 0x400 + (m - 0xDC00)) :: b
                    else none
                  else none
                | _ => none
              else if 0xDC00 ≤ n ∧ n ≤ 0xDFFF then none
              else (decodeBody fuel rest3).map fun b => Char.ofNat n :: b
            else none
          | _ => none
        else none
    else (decodeBody fuel rest).map fun b => c :: b

/-- The parsed value in the sense of the claim: strict parse with escape
sequences decoded. -/
def strictParseArrays (s : Str) : Option (List (List Str)) :=
  (parseArraysRaw s).bind fun v =>
    v.mapM fun inner => inner.mapM fun b => decodeBody (b.length + 1) b

/-- C9 counterexample: the input `[["\/"]]` strict-parses to the value
`[["/"]]`, whose canonical serde_json serialization is `[["/"]]`; but the
repair scanner copies the escape sequence verbatim and returns `[["\/"]]`,
which differs. Repair is therefore not `serialize(parse(input))` on inputs
that already parse. -/
theorem C9_repair_counterexample :
    strictParseArrays ['[', '[', '"', '\\', '/', '"', ']', ']']
        = some [[['/']]] ∧
      fixMe ['[', '[', '"', '\\', '/', '"', ']', ']']
        = some ['[', '[', '"', '\\', '/', '"', ']', ']'] ∧
      jsonEncodeStrListList [[['/']]] = ['[', '[', '"', '/', '"', ']', ']'] ∧
      (['[', '[', '"', '\\', '/', '"', ']', ']'] : Str)
        ≠ ['[', '[', '"', '/', '"', ']', ']'] := by
  refine ⟨rfl, rfl, rfl, by decide⟩

/-! ## Whitespace and lookahead lemmas for the repair proof -/

lemma jsonWs_imp_rust {c : Char} (h : jsonWs c = true) :
    rustIsWhitespace c = true := by
  simp only [jsonWs, decide_eq_true_eq] at h
  simp only [rustIsWhitespace, decide_eq_true_eq]
  omega

lemma skipSpace_cons_not_ws {c : Char} {t : Str}
    (h : rustIsWhitespace c = false) : skipSpace (c :: t) = c :: t := by
  simp [skipSpace, List.dropWhile_cons, h]

lemma skipSpace_ws_prefix {w : Str} (t : Str)
    (hw : ∀ c ∈ w, jsonWs c = true) :
    skipSpace (w ++ t) = skipSpace t := by
  induction w with
  | nil => rfl
  | cons c w' ih =>
    have hc : rustIsWhitespace c = true :=
      jsonWs_imp_rust (hw c (List.mem_cons_self c w'))
    simp only [List.cons_append, skipSpace, List.dropWhile_cons, hc, if_true]
    exact ih (fun x hx => hw x (List.mem_cons_of_mem c hx))

lemma jsonSkip_decomp (r : Str) :
    r = r.takeWhile jsonWs ++ jsonSkip r ∧
      ∀ c ∈ r.takeWhile jsonWs, jsonWs c = true :=
  ⟨(List.takeWhile_append_dropWhile jsonWs r).symm,
    fun _ hc => List.mem_takeWhile_imp hc⟩

lemma skipSpace_of_jsonSkip_cons {r : Str} {d : Char} {t : Str}
    (h : jsonSkip r = d :: t) (hd : rustIsWhitespace d = false) :
    skipSpace r = d :: t := by
  obtain ⟨hdec, hws⟩ := jsonSkip_decomp r
  calc skipSpace r = skipSpace (r.takeWhile jsonWs ++ jsonSkip r) := by
        rw [← hdec]
    _ = skipSpace (jsonSkip r) := skipSpace_ws_prefix _ hws
    _ = d :: t := by rw [h]; exact skipSpace_cons_not_ws hd

lemma skipSpace_of_jsonSkip_nil {r : Str} (h : jsonSkip r = []) :
    skipSpace r = [] := by
  obtain ⟨hdec, hws⟩ := jsonSkip_decomp r
  calc skipSpace r = skipSpace (r.takeWhile jsonWs ++ jsonSkip r) := by
        rw [← hdec]
    _ = skipSpace (jsonSkip r) := skipSpace_ws_prefix _ hws
    _ = [] := by rw [h]; rfl

lemma cne_ws_prefix {w : Str} (t : Str) (b : Bool)
    (hw : ∀ c ∈ w, jsonWs c = true) :
    canNotEndText (w ++ t) b = canNotEndText t b := by
  induction w with
  | nil => rfl
  | cons c w' ih =>
    have hc : rustIsWhitespace c = true :=
      jsonWs_imp_rust (hw c (List.mem_cons_self c w'))
    simp only [List.cons_append, canNotEndText, hc, if_true]
    exact ih (fun x hx => hw x (List.mem_cons_of_mem c hx))

lemma cne_rbrack (t : Str) :
    canNotEndText (']' :: t) false = canNotEndText t false := by
  simp [canNotEndText, rustIsWhitespace]

lemma cne_open_true {d : Char} (t : Str)
    (hd : d = '"' ∨ d = '{' ∨ d = '[') :
    canNotEndText (d :: t) true = false := by
  rcases hd with rfl | rfl | rfl <;> simp [canNotEndText, rustIsWhitespace]

lemma cne_comma_open {r : Str} {d : Char} {t : Str}
    (h : jsonSkip r = d :: t) (hd : d = '"' ∨ d = '{' ∨ d = '[') :
    canNotEndText (',' :: r) false = false := by
  have hstep : canNotEndText (',' :: r) false = canNotEndText r true := by
    simp [canNotEndText, rustIsWhitespace]
  rw [hstep]
  obtain ⟨hdec, hws⟩ := jsonSkip_decomp r
  calc canNotEndText r true
      = canNotEndText (r.takeWhile jsonWs ++ jsonSkip r) true := by rw [← hdec]
    _ = canNotEndText (jsonSkip r) true := cne_ws_prefix _ _ hws
    _ = false := by rw [h]; exact cne_open_true t hd

lemma cne_of_jsonSkip_nil {r : Str} (h : jsonSkip r = []) :
    canNotEndText r false = false := by
  obtain ⟨hdec, hws⟩ := jsonSkip_decomp r
  calc canNotEndText r false
      = canNotEndText (r.takeWhile jsonWs ++ jsonSkip r) false := by
        rw [← hdec]
    _ = canNotEndText (jsonSkip r) false := cne_ws_prefix _ _ hws
    _ = false := by rw [h]; rfl

lemma jsonSkip_len_le (r : Str) : (jsonSkip r).length ≤ r.length := by
  induction r with
  | nil => simp [jsonSkip]
  | cons c t ih =>
    rw [jsonSkip, List.dropWhile_cons]
    split
    · simp only [List.length_cons]
      exact Nat.le_succ_of_le ih
    · simp

/-! ## Consumption and shape lemmas for the strict parser -/

lemma parseStrBody_len :
    ∀ (fp : Nat) {b x r : Str}, parseStrBody fp b = some (x, r) →
      r.length < b.length := by
  intro fp
  induction fp with
  | zero =>
    intro b x r h
    simp [parseStrBody] at h
  | succ fp ih =>
    intro b x r h
    match b with
    | [] => simp [parseStrBody] at h
    | c :: rest =>
      simp only [parseStrBody] at h
      split at h
      · cases h
        simp
      · split at h
        · split at h
          · cases h
          · split at h
            · simp only [Option.map_eq_some'] at h
              obtain ⟨⟨b1, r1⟩, hp, heq⟩ := h
              cases heq
              have := ih hp
              simp only [List.length_cons] at *
              omega
            · split at h
              · split at h
                · split at h
                  · simp only [Option.map_eq_some'] at h
                    obtain ⟨⟨b1, r1⟩, hp, heq⟩ := h
                    cases heq
                    have := ih hp
                    simp only [List.length_cons] at *
                    omega
                  · cases h
                · cases h
              · cases h
        · split at h
          · cases h
          · simp only [Option.map_eq_some'] at h
            obtain ⟨⟨b1, r1⟩, hp, heq⟩ := h
            cases heq
            have := ih hp
            simp only [List.length_cons]
            omega

lemma parseStringsLoop_shape :
    ∀ (fp : Nat) {s : Str} {es : List Str} {rest : Str},
      parseStringsLoop fp s = some (es, rest) →
      (∃ b, s = '"' :: b) ∧ es ≠ [] := by
  intro fp s es rest h
  match fp with
  | 0 => simp [parseStringsLoop] at h
  | fp + 1 =>
    match s with
    | [] => simp [parseStringsLoop] at h
    | c :: b =>
      simp only [parseStringsLoop] at h
      split at h
      · rename_i hc
        subst hc
        refine ⟨⟨b, rfl⟩, ?_⟩
        simp only [Option.bind_eq_some] at h
        obtain ⟨⟨b1, r1⟩, hp, h2⟩ := h
        split at h2
        · cases h2
        · split at h2
          · simp only [Option.map_eq_some'] at h2
            obtain ⟨⟨es1, r2⟩, hq, heq⟩ := h2
            cases heq
            simp
          · split at h2
            · cases h2
              simp
            · cases h2
      · cases h

lemma parseStringsLoop_len :
    ∀ (fp : Nat) {s : Str} {es : List Str} {rest : Str},
      parseStringsLoop fp s = some (es, rest) →
      rest.length < s.length := by
  intro fp
  induction fp with
  | zero =>
    intro s es rest h
    simp [parseStringsLoop] at h
  | succ fp ih =>
    intro s es rest h
    match s with
    | [] => simp [parseStringsLoop] at h
    | c :: b =>
      simp only [parseStringsLoop] at h
      split at h
      · simp only [Option.bind_eq_some] at h
        obtain ⟨⟨b1, r1⟩, hp, h2⟩ := h
        have hr1 : r1.length < b.length := parseStrBody_len _ hp
        have hjs : (jsonSkip r1).length ≤ r1.length := jsonSkip_len_le r1
        split at h2
        · cases h2
        · rename_i d r2 heq
          have h6 : r2.length + 1 = (jsonSkip r1).length := by
            rw [heq]
            rfl
          have h5 : (jsonSkip r2).length ≤ r2.length := jsonSkip_len_le r2
          split at h2
          · simp only [Option.map_eq_some'] at h2
            obtain ⟨⟨es1, r3⟩, hq, heq2⟩ := h2
            cases heq2
            have h4 := ih hq
            simp only [List.length_cons]
            omega
          · split at h2
            · cases h2
              simp only [List.length_cons]
              omega
            · cases h2
      · cases h

lemma parseStrArray_shape :
    ∀ (fp : Nat) {s : Str} {es : List Str} {rest : Str},
      parseStrArray fp s = some (es, rest) → ∃ t, s = '[' :: t := by
  intro fp s es rest h
  match fp with
  | 0 => simp [parseStrArray] at h
  | fp + 1 =>
    match s with
    | [] => simp [parseStrArray] at h
    | c :: t =>
      simp only [parseStrArray] at h
      split at h
      · rename_i hc
        subst hc
        exact ⟨t, rfl⟩
      · cases h

lemma parseStrArray_len :
    ∀ (fp : Nat) {s : Str} {es : List Str} {rest : Str},
      parseStrArray fp s = some (es, rest) → rest.length < s.length := by
  intro fp s es rest h
  match fp with
  | 0 => simp [parseStrArray] at h
  | fp + 1 =>
    match s with
    | [] => simp [parseStrArray] at h
    | c :: t =>
      simp only [parseStrArray] at h
      split at h
      · have h5 : (jsonSkip t).length ≤ t.length := jsonSkip_len_le t
        split at h
        · rename_i heq
          have h4 := parseStringsLoop_len _ h
          simp only [List.length_nil] at h4
          omega
        · rename_i d r2 heq
          have h6 : r2.length + 1 = (jsonSkip t).length := by
            rw [heq]
            rfl
          split at h
          · cases h
            simp only [List.length_cons]
            omega
          · have h4 := parseStringsLoop_len _ h
            have h7 : (d :: r2).length = (jsonSkip t).length := by
              rw [heq]
            simp only [List.length_cons] at *
            omega
      · cases h

lemma parseArraysLoop_shape :
    ∀ (fp : Nat) {s : Str} {vs : List (List Str)} {rest : Str},
      parseArraysLoop fp s = some (vs, rest) →
      (∃ t, s = '[' :: t) ∧ vs ≠ [] := by
  intro fp s vs rest h
  match fp with
  | 0 => simp [parseArraysLoop] at h
  | fp + 1 =>
    rw [parseArraysLoop] at h
    simp only [Option.bind_eq_some] at h
    obtain ⟨⟨v1, r1⟩, hp, h2⟩ := h
    refine ⟨parseStrArray_shape _ hp, ?_⟩
    split at h2
    · cases h2
    · split at h2
      · simp only [Option.map_eq_some'] at h2
        obtain ⟨⟨vs1, r2⟩, hq, heq⟩ := h2
        cases heq
        simp
      · split at h2
        · cases h2
          simp
        · cases h2

/-- Follow set met by the repair proof after a closing quote (whitespace
already skipped): either end of input, or a delimiter on which the scanner
closes the string, with the lookahead agreeing that the text may end. -/
def goodFollow (r : Str) : Prop :=
  r = [] ∨ (canNotEndText r false = false ∧
    ∃ d t, r = d :: t ∧ (d = ',' ∨ d = ':' ∨ d = '}' ∨ d = ']'))

lemma isHexDigit_not_special {c : Char} (h : isHexDigit c = true) :
    c ≠ '"' ∧ c ≠ '\\' ∧ ¬ c.toNat < 0x20 := by
  refine ⟨?_, ?_, ?_⟩
  · intro hc
    subst hc
    revert h
    decide
  · intro hc
    subst hc
    revert h
    decide
  · simp only [isHexDigit, decide_eq_true_eq] at h
    omega

lemma parseStrBody_cons_normal {c : Char} (hq : ¬ c = '"') (hb : ¬ c = '\\')
    (hctl : ¬ c.toNat < 0x20) (fp : Nat) (rest : Str) :
    parseStrBody (fp + 1) (c :: rest)
      = (parseStrBody fp rest).map fun br => (c :: br.1, br.2) := by
  simp only [parseStrBody]
  rw [if_neg hq, if_neg hb, if_neg hctl]

lemma scanTextGo_spec :
    ∀ (n fp : Nat) {b body rest : Str} (f : Nat) (acc : Str),
      b.length ≤ n →
      parseStrBody fp b = some (body, rest) →
      b.length < f →
      goodFollow (skipSpace rest) →
      scanTextGo f acc b = some (acc ++ body ++ ['"'], skipSpace rest) := by
  intro n
  induction n with
  | zero =>
    intro fp b body rest f acc hn h hf hgf
    match b, hn with
    | [], _ =>
      match fp with
      | 0 => simp [parseStrBody] at h
      | fp + 1 => simp [parseStrBody] at h
  | succ n ihn =>
    intro fp b body rest f acc hn h hf hgf
    match fp with
    | 0 => simp [parseStrBody] at h
    | fp + 1 =>
      match b with
      | [] => simp [parseStrBody] at h
      | c :: brest =>
        obtain ⟨f', rfl⟩ : ∃ f', f = f' + 1 := ⟨f - 1, by omega⟩
        simp only [List.length_cons] at hn hf
        simp only [parseStrBody] at h
        split at h
        · rename_i hc
          subst hc
          simp only [Option.some.injEq, Prod.mk.injEq] at h
          obtain ⟨hbody, hrest⟩ := h
          subst hbody
          subst hrest
          simp only [scanTextGo]
          rw [if_neg (by decide), if_pos trivial]
          rcases hgf with hemp | ⟨hcne, d, t, hr, hd⟩
          · rw [hemp]
            simp
          · rw [hr] at hcne ⊢
            simp only [hcne, Bool.false_eq_true, if_false]
            rw [if_pos hd]
            simp
        · rename_i hcq
          split at h
          · rename_i hcb
            subst hcb
            split at h
            · cases h
            · rename_i e rest2
              split at h
              · rename_i he8
                simp only [Option.map_eq_some'] at h
                obtain ⟨⟨b', r'⟩, hp, heq2⟩ := h
                simp only [Prod.mk.injEq] at heq2
                obtain ⟨hbody, hrest⟩ := heq2
                subst hbody
                subst hrest
                simp only [scanTextGo]
                rw [if_pos trivial]
                have he9 : e = '"' ∨ e = '\\' ∨ e = '/' ∨ e = 'b' ∨ e = 'f' ∨
                    e = 'n' ∨ e = 'r' ∨ e = 't' ∨ e = 'u' := by tauto
                rw [if_pos he9]
                rw [ihn fp f' (acc ++ ['\\', e])
                  (by simp only [List.length_cons] at hn ⊢; omega) hp
                  (by simp only [List.length_cons] at hf ⊢; omega) hgf]
                simp
              · rename_i he8
                split at h
                · rename_i hu
                  subst hu
                  split at h
                  · rename_i h1 h2 h3 h4 rest3
                    split at h
                    · rename_i hhex
                      obtain ⟨hx1, hx2, hx3, hx4⟩ := hhex
                      simp only [Option.map_eq_some'] at h
                      obtain ⟨⟨b', r'⟩, hp, heq3⟩ := h
                      simp only [Prod.mk.injEq] at heq3
                      obtain ⟨hbody, hrest⟩ := heq3
                      subst hbody
                      subst hrest
                      have e1 := isHexDigit_not_special hx1
                      have e2 := isHexDigit_not_special hx2
                      have e3 := isHexDigit_not_special hx3
                      have e4 := isHexDigit_not_special hx4
                      have hb1 : parseStrBody (fp + 1 + 1 + 1 + 1)
                          (h1 :: h2 :: h3 :: h4 :: rest3)
                          = some (h1 :: h2 :: h3 :: h4 :: b', r') := by
                        rw [parseStrBody_cons_normal e1.1 e1.2.1 e1.2.2,
                          parseStrBody_cons_normal e2.1 e2.2.1 e2.2.2,
                          parseStrBody_cons_normal e3.1 e3.2.1 e3.2.2,
                          parseStrBody_cons_normal e4.1 e4.2.1 e4.2.2, hp]
                        rfl
                      simp only [scanTextGo]
                      rw [if_pos trivial, if_pos (by tauto)]
                      rw [ihn (fp + 1 + 1 + 1 + 1) f' (acc ++ ['\\', 'u'])
                        (by simp only [List.length_cons] at hn ⊢; omega) hb1
                        (by simp only [List.length_cons] at hf ⊢; omega) hgf]
                      simp
                    · cases h
                  · cases h
                · cases h
          · rename_i hcb
            split at h
            · cases h
            · rename_i hctl
              simp only [Option.map_eq_some'] at h
              obtain ⟨⟨b', r'⟩, hp, heq2⟩ := h
              simp only [Prod.mk.injEq] at heq2
              obtain ⟨hbody, hrest⟩ := heq2
              subst hbody
              subst hrest
              simp only [scanTextGo]
              rw [if_neg hcb, if_neg hcq]
              rw [ihn fp f' (acc ++ [c])
                (by omega) hp (by omega) hgf]
              simp

lemma scanText_cons_quote (f : Nat) (b : Str) :
    scanText f ('"' :: b) = scanTextGo f ['"'] b := by
  simp [scanText]

/-- The separator step shared by the two branches of the array loop: after a
value has been scanned, skip whitespace and read `,` or `]`. -/
def sepStep (f : Nat) (acc o r : Str) : Option (Str × Str) :=
  match skipSpace r with
  | [] => none
  | d :: r2 =>
    if d = ',' then scanArrayLoop f (acc ++ o ++ [',']) (skipSpace r2)
    else if d = ']' then some (acc ++ o ++ [']'], r2)
    else none

lemma sepStep_eq {r : Str} {d : Char} {r2 : Str} (f : Nat) (acc o : Str)
    (h : skipSpace r = d :: r2) :
    sepStep f acc o r
      = if d = ',' then scanArrayLoop f (acc ++ o ++ [',']) (skipSpace r2)
        else if d = ']' then some (acc ++ o ++ [']'], r2)
        else none := by
  simp only [sepStep, h]

lemma scanArrayLoop_cons_quote (f : Nat) (acc b : Str) :
    scanArrayLoop (f + 1) acc ('"' :: b)
      = (scanText f ('"' :: b)).bind fun out =>
          sepStep f acc out.1 out.2 := by
  simp only [scanArrayLoop, sepStep]
  rw [if_neg (by decide), if_neg (by decide), if_pos trivial]

lemma scanArrayLoop_cons_lbrack (f : Nat) (acc b : Str) :
    scanArrayLoop (f + 1) acc ('[' :: b)
      = (scanArray f ('[' :: b)).bind fun out =>
          sepStep f acc out.1 out.2 := by
  simp only [scanArrayLoop, sepStep]
  rw [if_neg (by decide), if_pos trivial]

lemma scanArray_step_nil (f : Nat) {rest : Str} (h : skipSpace rest = []) :
    scanArray (f + 1) ('[' :: rest) = scanArrayLoop f ['['] [] := by
  simp only [scanArray, h]
  rw [if_pos trivial]

lemma scanArray_step_cons (f : Nat) {rest : Str} {d : Char} {r2 : Str}
    (h : skipSpace rest = d :: r2) :
    scanArray (f + 1) ('[' :: rest)
      = if d = ']' then some (['[', ']'], r2)
        else scanArrayLoop f ['['] (d :: r2) := by
  simp only [scanArray, h]
  rw [if_pos trivial]

lemma joinComma_cons_ne {x : Str} {xs : List Str} (h : xs ≠ []) :
    joinComma (x :: xs) = x ++ ',' :: joinComma xs := by
  match xs, h with
  | y :: ys, _ => rfl

lemma cne_jsonSkip (r : Str) (b : Bool) :
    canNotEndText r b = canNotEndText (jsonSkip r) b := by
  obtain ⟨hdec, hws⟩ := jsonSkip_decomp r
  conv_lhs => rw [hdec]
  exact cne_ws_prefix _ _ hws

lemma scanArrayLoopStrings_spec :
    ∀ (n fp : Nat) {s : Str} {es : List Str} {rest : Str} (f : Nat)
      (acc : Str),
      s.length ≤ n →
      parseStringsLoop fp s = some (es, rest) →
      2 * s.length + 2 ≤ f →
      canNotEndText rest false = false →
      scanArrayLoop f acc s
        = some (acc ++ joinComma (es.map serializeStrRaw) ++ [']'], rest) := by
  intro n
  induction n with
  | zero =>
    intro fp s es rest f acc hn h hf hcne
    match s, hn with
    | [], _ =>
      match fp with
      | 0 => simp [parseStringsLoop] at h
      | fp + 1 => simp [parseStringsLoop] at h
  | succ n ihn =>
    intro fp s es rest f acc hn h hf hcne
    match fp with
    | 0 => simp [parseStringsLoop] at h
    | fp + 1 =>
      match s with
      | [] => simp [parseStringsLoop] at h
      | c :: b =>
        simp only [List.length_cons] at hn hf
        simp only [parseStringsLoop] at h
        split at h
        · rename_i hc
          subst hc
          simp only [Option.bind_eq_some] at h
          obtain ⟨⟨body, r1⟩, hpb, h2⟩ := h
          obtain ⟨f'', rfl⟩ : ∃ g, f = g + 1 := ⟨f - 1, by omega⟩
          have hr1len : r1.length < b.length := parseStrBody_len _ hpb
          rw [scanArrayLoop_cons_quote, scanText_cons_quote]
          split at h2
          · cases h2
          · rename_i d r2 heq
            have hjs1 : (jsonSkip r1).length ≤ r1.length := jsonSkip_len_le r1
            have hr2len : r2.length + 1 = (jsonSkip r1).length := by
              rw [heq]
              rfl
            split at h2
            · rename_i hd
              subst hd
              simp only [Option.map_eq_some'] at h2
              obtain ⟨⟨es', r3⟩, hq, heq2⟩ := h2
              simp only [Prod.mk.injEq] at heq2
              obtain ⟨hes, hrest⟩ := heq2
              subst hes
              subst hrest
              obtain ⟨⟨b2, hsq⟩, hes'ne⟩ := parseStringsLoop_shape _ hq
              have hskip1 : skipSpace r1 = ',' :: r2 :=
                skipSpace_of_jsonSkip_cons heq (by decide)
              have hgf : goodFollow (skipSpace r1) := by
                right
                rw [hskip1]
                exact ⟨cne_comma_open hsq (Or.inl rfl), ',', r2, rfl,
                  Or.inl rfl⟩
              rw [scanTextGo_spec b.length fp f'' ['"'] (Nat.le_refl _) hpb
                (by omega) hgf]
              simp only [Option.some_bind]
              rw [sepStep_eq f'' acc (['"'] ++ body ++ ['"'])
                (by rw [hskip1]; exact skipSpace_cons_not_ws (by decide))]
              rw [if_pos rfl]
              have hskip2 : skipSpace r2 = '"' :: b2 :=
                skipSpace_of_jsonSkip_cons hsq (by decide)
              rw [hskip2, ← hsq]
              have hjs2 : (jsonSkip r2).length ≤ r2.length := jsonSkip_len_le r2
              rw [ihn fp f'' (acc ++ (['"'] ++ body ++ ['"']) ++ [','])
                (by omega) hq (by omega) hcne]
              rw [List.map_cons,
                joinComma_cons_ne (by simp [hes'ne]), serializeStrRaw]
              simp
            · rename_i hd
              split at h2
              · rename_i hd2
                subst hd2
                simp only [Option.some.injEq, Prod.mk.injEq] at h2
                obtain ⟨hes, hrest⟩ := h2
                subst hes
                subst hrest
                have hskip1 : skipSpace r1 = ']' :: r2 :=
                  skipSpace_of_jsonSkip_cons heq (by decide)
                have hgf : goodFollow (skipSpace r1) := by
                  right
                  rw [hskip1, cne_rbrack]
                  exact ⟨hcne, ']', r2, rfl, Or.inr (Or.inr (Or.inr rfl))⟩
                rw [scanTextGo_spec b.length fp f'' ['"'] (Nat.le_refl _) hpb
                  (by omega) hgf]
                simp only [Option.some_bind]
                rw [sepStep_eq f'' acc (['"'] ++ body ++ ['"'])
                  (by rw [hskip1]; exact skipSpace_cons_not_ws (by decide))]
                rw [if_neg (by decide), if_pos rfl]
                simp [serializeStrRaw, joinComma]
              · cases h2
        · cases h

lemma scanArrayStrings_spec (fp : Nat) {s : Str} {es : List Str}
    {rest : Str} (f : Nat)
    (h : parseStrArray fp s = some (es, rest))
    (hf : 2 * s.length + 1 ≤ f)
    (hcne : canNotEndText rest false = false) :
    scanArray f s = some (serializeInnerRaw es, rest) := by
  match fp with
  | 0 => simp [parseStrArray] at h
  | fp + 1 =>
    match s with
    | [] => simp [parseStrArray] at h
    | c :: t =>
      simp only [List.length_cons] at hf
      simp only [parseStrArray] at h
      split at h
      · rename_i hc
        subst hc
        obtain ⟨f'', rfl⟩ : ∃ g, f = g + 1 := ⟨f - 1, by omega⟩
        split at h
        · rename_i hjs
          obtain ⟨⟨b2, habs⟩, -⟩ := parseStringsLoop_shape _ h
          cases habs
        · rename_i d r2 hjs
          have hr2len : r2.length + 1 = (jsonSkip t).length := by
            rw [hjs]
            rfl
          have hjsle : (jsonSkip t).length ≤ t.length := jsonSkip_len_le t
          split at h
          · rename_i hd
            subst hd
            simp only [Option.some.injEq, Prod.mk.injEq] at h
            obtain ⟨hes, hrest⟩ := h
            subst hes
            subst hrest
            rw [scanArray_step_cons f''
              (skipSpace_of_jsonSkip_cons hjs (by decide))]
            rw [if_pos rfl]
            simp [serializeInnerRaw, joinComma]
          · rename_i hd
            obtain ⟨⟨b2, hsq⟩, -⟩ := parseStringsLoop_shape _ h
            have hdq : d = '"' := by
              cases hsq
              rfl
            subst hdq
            rw [scanArray_step_cons f''
              (skipSpace_of_jsonSkip_cons hjs (by decide))]
            rw [if_neg (by decide)]
            rw [scanArrayLoopStrings_spec (r2.length + 1) fp f'' ['[']
              (by simp) h (by simp only [List.length_cons]; omega) hcne]
            simp [serializeInnerRaw]
      · cases h

lemma scanArrayLoopArrays_spec :
    ∀ (n fp : Nat) {s : Str} {vs : List (List Str)} {rest : Str} (f : Nat)
      (acc : Str),
      s.length ≤ n →
      parseArraysLoop fp s = some (vs, rest) →
      2 * s.length + 2 ≤ f →
      jsonSkip rest = [] →
      scanArrayLoop f acc s
        = some (acc ++ joinComma (vs.map serializeInnerRaw) ++ [']'],
            rest) := by
  intro n
  induction n with
  | zero =>
    intro fp s vs rest f acc hn h hf hrest
    match s, hn with
    | [], _ =>
      match fp with
      | 0 => simp [parseArraysLoop] at h
      | fp + 1 =>
        rw [parseArraysLoop] at h
        simp only [Option.bind_eq_some] at h
        obtain ⟨⟨v1, r1⟩, hp, h2⟩ := h
        obtain ⟨t, habs⟩ := parseStrArray_shape _ hp
        cases habs
  | succ n ihn =>
    intro fp s vs rest f acc hn h hf hrest
    match fp with
    | 0 => simp [parseArraysLoop] at h
    | fp + 1 =>
      rw [parseArraysLoop] at h
      simp only [Option.bind_eq_some] at h
      obtain ⟨⟨v1, r1⟩, hp, h2⟩ := h
      obtain ⟨t, hs⟩ := parseStrArray_shape _ hp
      subst hs
      simp only [List.length_cons] at hn hf
      obtain ⟨f'', rfl⟩ : ∃ g, f = g + 1 := ⟨f - 1, by omega⟩
      rw [scanArrayLoop_cons_lbrack]
      have hr1len : r1.length < ('[' :: t).length := parseStrArray_len _ hp
      simp only [List.length_cons] at hr1len
      split at h2
      · cases h2
      · rename_i d r2 heq
        have hjs1 : (jsonSkip r1).length ≤ r1.length := jsonSkip_len_le r1
        have hr2len : r2.length + 1 = (jsonSkip r1).length := by
          rw [heq]
          rfl
        split at h2
        · rename_i hd
          subst hd
          simp only [Option.map_eq_some'] at h2
          obtain ⟨⟨vs', r3⟩, hq, heq2⟩ := h2
          simp only [Prod.mk.injEq] at heq2
          obtain ⟨hvs, hrst⟩ := heq2
          subst hvs
          subst hrst
          obtain ⟨⟨t2, hsq⟩, hvs'ne⟩ := parseArraysLoop_shape _ hq
          have hcne1 : canNotEndText r1 false = false := by
            rw [cne_jsonSkip, heq]
            exact cne_comma_open hsq (Or.inr (Or.inr rfl))
          rw [scanArrayStrings_spec fp f'' hp
            (by simp only [List.length_cons]; omega) hcne1]
          simp only [Option.some_bind]
          rw [sepStep_eq f'' acc (serializeInnerRaw v1)
            (skipSpace_of_jsonSkip_cons heq (by decide))]
          rw [if_pos rfl]
          have hskip2 : skipSpace r2 = '[' :: t2 :=
            skipSpace_of_jsonSkip_cons hsq (by decide)
          rw [hskip2, ← hsq]
          have hjs2 : (jsonSkip r2).length ≤ r2.length := jsonSkip_len_le r2
          rw [ihn fp f'' (acc ++ serializeInnerRaw v1 ++ [','])
            (by omega) hq (by omega) hrest]
          rw [List.map_cons, joinComma_cons_ne (by simp [hvs'ne])]
          simp
        · rename_i hd
          split at h2
          · rename_i hd2
            subst hd2
            simp only [Option.some.injEq, Prod.mk.injEq] at h2
            obtain ⟨hvs, hrst⟩ := h2
            subst hvs
            subst hrst
            have hcne1 : canNotEndText r1 false = false := by
              rw [cne_jsonSkip, heq, cne_rbrack]
              exact cne_of_jsonSkip_nil hrest
            rw [scanArrayStrings_spec fp f'' hp
              (by simp only [List.length_cons]; omega) hcne1]
            simp only [Option.some_bind]
            rw [sepStep_eq f'' acc (serializeInnerRaw v1)
              (skipSpace_of_jsonSkip_cons heq (by decide))]
            rw [if_neg (by decide), if_pos rfl]
            simp [joinComma]
          · cases h2

lemma fixMe_lbrack {s t : Str} (h : rustTrim s = '[' :: t) :
    fixMe s = (scanArray (2 * (rustTrim s).length + 2) ('[' :: t)).bind
      fun out => if (skipSpace out.2).isEmpty then some out.1 else none := by
  simp [fixMe, h,
    skipSpace_cons_not_ws (show rustIsWhitespace '[' = false by decide)]

/-- C9 amended: for every input that already strict-parses as a JSON array
of arrays of strings (reference grammar `parseArraysRaw`, which keeps the
raw escape sequences of string bodies), the repair succeeds and returns the
canonical serialization with string bodies preserved verbatim — that is,
the input with all whitespace outside string literals removed — rather than
the serde_json re-serialization of the decoded value. -/
theorem C9_repair_amended (s : Str) (v : List (List Str))
    (hp : parseArraysRaw s = some v) :
    fixMe s = some (serializeRaw v) := by
  unfold parseArraysRaw at hp
  split at hp
  · rename_i v' rest heq
    split at hp
    · rename_i hemp
      simp only [Option.some.injEq] at hp
      subst hp
      have hrest : rest = [] := List.isEmpty_iff.mp hemp
      subst hrest
      rcases hD : rustTrim s with _ | ⟨c, t⟩
      · rw [hD] at heq
        simp [parseOuterArray] at heq
      · rw [hD] at heq
        have hfu : 2 * (c :: t : Str).length + 2
            = (2 * (c :: t : Str).length + 1) + 1 := rfl
        rw [hfu] at heq
        simp only [parseOuterArray] at heq
        split at heq
        · rename_i hc
          subst hc
          rw [fixMe_lbrack hD, hD, hfu]
          split at heq
          · rename_i hjs
            obtain ⟨⟨t2, habs⟩, -⟩ := parseArraysLoop_shape _ heq
            cases habs
          · rename_i d r2 hjs
            split at heq
            · rename_i hd
              subst hd
              simp only [Option.some.injEq, Prod.mk.injEq] at heq
              obtain ⟨hv, hr2⟩ := heq
              subst hv
              subst hr2
              rw [scanArray_step_cons _
                (skipSpace_of_jsonSkip_cons hjs (by decide))]
              rw [if_pos rfl]
              simp [serializeRaw, joinComma, skipSpace]
            · rename_i hd
              obtain ⟨⟨t2, hsq⟩, -⟩ := parseArraysLoop_shape _ heq
              have hdq : d = '[' := by
                cases hsq
                rfl
              subst hdq
              rw [scanArray_step_cons _
                (skipSpace_of_jsonSkip_cons hjs (by decide))]
              rw [if_neg (by decide)]
              have hjsle : (jsonSkip t).length ≤ t.length := jsonSkip_len_le t
              have hlen : ('[' :: r2 : Str).length = (jsonSkip t).length := by
                rw [hjs]
              rw [scanArrayLoopArrays_spec ('[' :: r2 : Str).length
                (2 * ('[' :: t : Str).length + 1) _ ['[']
                (Nat.le_refl _) heq
                (by simp only [List.length_cons] at hlen ⊢; omega) rfl]
              simp [serializeRaw, skipSpace]
        · cases heq
    · cases hp
  · cases hp

/-- Witness for the amended C9 at the concrete input `[["a"]]`. -/
theorem C9_repair_amended_witness :
    parseArraysRaw ['[', '[', '"', 'a', '"', ']', ']'] = some [[['a']]] ∧
      fixMe ['[', '[', '"', 'a', '"', ']', ']']
        = some (serializeRaw [[['a']]]) :=
  ⟨rfl, C9_repair_amended ['[', '[', '"', 'a', '"', ']', ']'] [[['a']]] rfl⟩

end Jarvis